import Mathlib

/-!
Verification of `pdf_vertical_ocr_arial.py`: a shallow embedding of its
text-normalization, spell-correction, layout and page-processing pipeline,
with theorems settling the specified behavioural claims.

Strings are modelled as `List Char`.  Python regex substitutions are
modelled as recursive functions with the same semantics as `re.sub` for
these patterns.  Rational numbers stand in for Python floats (all
quantities involved are exact decimals, so this is faithful up to float
rounding, which none of the claims depends on).
-/

namespace PdfVerticalOcr

/-- Python whitespace characters recognized by `str.split` / `str.strip` /
`str.rstrip` (ASCII subset; the texts in play are ASCII/Latin). -/
def isPyWhite (c : Char) : Bool :=
  c = ' ' || c = '\t' || c = '\n' || c = '\x0d' || c = '\x0b' || c = '\x0c'

/-- Horizontal whitespace matched by the character class `[ \t]` in
`correct_spanish_text`'s second regex. -/
def isHWs (c : Char) : Bool :=
  c = ' ' || c = '\t'

/-! ## The four normalization rewrites of `correct_spanish_text`
(lines 59–64 of the source):

1. `re.sub(r"-\n", "", text)`
2. `re.sub(r"[ \t]+\n", "\n", text)`
3. `re.sub(r"\n{3,}", "\n\n", text)`
4. `re.sub(r"[ ]{2,}", " ", text)`

Each is a global substitution.  Rule 1 is a literal two-character pattern
and is modelled by the left-to-right scan `re.sub` performs.  Rules 2–4
replace maximal runs; they are modelled by right-to-left scans that delete
exactly the characters `re.sub` deletes: for rule 2, every `[ \t]`
character all of whose following characters up to an existing `'\n'` are
`[ \t]`; for rule 3, every `'\n'` preceding at least two further `'\n'`s
of the same run; for rule 4, every space directly followed by a space
(so each maximal run keeps its last character only).
-/

/-- Rule 1: delete every (leftmost, non-overlapping) occurrence of a literal
hyphen immediately followed by a line break — `re.sub(r"-\n", "", text)`. -/
def rule1 : List Char → List Char
  | '-' :: '\n' :: rest => rule1 rest
  | c :: rest => c :: rule1 rest
  | [] => []

/-- Scanner for rule 2.  The boolean component records whether the input
suffix just processed begins with `[ \t]*\n`; a horizontal-whitespace
character in that situation belongs to a run matched by `[ \t]+\n` and is
deleted. -/
def rule2Aux : List Char → List Char × Bool
  | [] => ([], false)
  | c :: rest =>
    let (out, pending) := rule2Aux rest
    if c = '\n' then ('\n' :: out, true)
    else if isHWs c && pending then (out, true)
    else (c :: out, false)

/-- Rule 2: delete horizontal-whitespace runs immediately preceding a line
break — `re.sub(r"[ \t]+\n", "\n", text)`. -/
def rule2 (l : List Char) : List Char :=
  (rule2Aux l).1

/-- Scanner for rule 3.  The `Nat` component counts the line breaks at the
head of the input suffix just processed, capped at 2; a `'\n'` arriving on
top of two retained `'\n'`s belongs to a `\n{3,}` run and is deleted. -/
def rule3Aux : List Char → List Char × Nat
  | [] => ([], 0)
  | c :: rest =>
    let (out, k) := rule3Aux rest
    if c = '\n' then
      if 2 ≤ k then (out, k) else ('\n' :: out, k + 1)
    else (c :: out, 0)

/-- Rule 3: collapse every maximal run of three or more line breaks to
exactly two — `re.sub(r"\n{3,}", "\n\n", text)`. -/
def rule3 (l : List Char) : List Char :=
  (rule3Aux l).1

/-- Scanner for rule 4.  The boolean component records whether the input
suffix just processed begins with a space; a space directly followed by a
space belongs to a `[ ]{2,}` run and is deleted (the run's last space is
kept). -/
def rule4Aux : List Char → List Char × Bool
  | [] => ([], false)
  | c :: rest =>
    let (out, sp) := rule4Aux rest
    if c = ' ' then
      if sp then (out, true) else (' ' :: out, true)
    else (c :: out, false)

/-- Rule 4: collapse every maximal run of two or more spaces (spaces only —
the pattern is `[ ]{2,}`, tabs are untouched) to a single space —
`re.sub(r"[ ]{2,}", " ", text)`. -/
def rule4 (l : List Char) : List Char :=
  (rule4Aux l).1

/-- The normalization pass of `correct_spanish_text` (source lines 59–64):
the four regex rewrites applied in order. -/
def normalize (l : List Char) : List Char :=
  rule4 (rule3 (rule2 (rule1 l)))

/-! ## The corrector (`setup_spell_tools` / `correct_spanish_text`)

The two optional backends are black boxes: the LanguageTool path
(`lt_tool.check` plus `language_tool_python.utils.correct`, which may
raise — the source wraps it in `try/except`) is a value of type
`List Char → Except E (List Char)`, and the pyspellchecker path
(`spell.correction`, returning a suggestion or `None`) is a value of type
`List Char → Option (List Char)`.  `setup_spell_tools` leaves each of the
globals `lt_tool` / `spell` either set or `None`; the pair is the
process-wide corrector state. -/
structure Backends (E : Type) where
  lt : Option (List Char → Except E (List Char))
  spell : Option (List Char → Option (List Char))

/-- Python `str.isalpha` restricted to the character repertoire in play
(ASCII letters plus accented Spanish letters). -/
def pyIsAlpha (c : Char) : Bool :=
  c.isAlpha || "áéíóúüñÁÉÍÓÚÜÑ".toList.contains c

/-- Python `str.isalnum` restricted likewise. -/
def pyIsAlnum (c : Char) : Bool :=
  pyIsAlpha c || c.isDigit

/-- Python `str.split()` with no separator: split on whitespace runs,
discarding empty fields. -/
def pySplit (l : List Char) : List (List Char) :=
  let step := fun c (acc : List Char × List (List Char)) =>
    if isPyWhite c then
      if acc.1 = [] then ([], acc.2) else ([], acc.1 :: acc.2)
    else (c :: acc.1, acc.2)
  let fin := l.foldr step ([], [])
  if fin.1 = [] then fin.2 else fin.1 :: fin.2

/-- The leading run of non-alphanumeric characters the first `while` loop
of the dictionary path strips from a token. -/
def tokPre (tok : List Char) : List Char :=
  tok.takeWhile (fun c => !pyIsAlnum c)

/-- The token after stripping `tokPre`. -/
def tokRest (tok : List Char) : List Char :=
  tok.dropWhile (fun c => !pyIsAlnum c)

/-- The trailing run of non-alphanumeric characters the second `while`
loop strips (taken from the already prefix-stripped remainder). -/
def tokSuf (tok : List Char) : List Char :=
  ((tokRest tok).reverse.takeWhile (fun c => !pyIsAlnum c)).reverse

/-- The core left between `tokPre` and `tokSuf`. -/
def tokCore (tok : List Char) : List Char :=
  ((tokRest tok).reverse.dropWhile (fun c => !pyIsAlnum c)).reverse

/-- The per-token body of the dictionary (`SpellChecker`) loop in
`correct_spanish_text` (source lines 78–90): tokens containing a letter
are stripped to a core; when the core is non-empty and the checker offers
a suggestion, the suggestion replaces the core between the verbatim
prefix and suffix; otherwise the token passes through unchanged. -/
def correctTok (corr : List Char → Option (List Char)) (tok : List Char) :
    List Char :=
  if tok.any pyIsAlpha then
    if tokCore tok ≠ [] then
      match corr (tokCore tok) with
      | some s => tokPre tok ++ s ++ tokSuf tok
      | none => tok
    else tok
  else tok

/-- The dictionary-backend pass: split on whitespace, correct each token,
rejoin with single spaces (`" ".join(tokens)`). -/
def dictCorrect (corr : List Char → Option (List Char)) (t : List Char) :
    List Char :=
  List.intercalate [' '] ((pySplit t).map (correctTok corr))

/-- `correct_spanish_text` (source lines 52–94): blank input returns
unchanged; otherwise the text is normalized, then the LanguageTool
backend is tried (its runtime failures are swallowed by the
`try/except`), then the dictionary backend, then identity. -/
def correctSpanishText {E : Type} (B : Backends E) (text : List Char) :
    List Char :=
  if text.all isPyWhite then text
  else
    let t := normalize text
    let ltResult : Option (List Char) :=
      match B.lt with
      | some check =>
        match check t with
        | .ok r => some r
        | .error _ => none
      | none => none
    match ltResult with
    | some r => r
    | none =>
      match B.spell with
      | some corr => dictCorrect corr t
      | none => t

/-! ## The layout engine (`write_wrapped_page`, source lines 125–158)

ReportLab's `simpleSplit(line, font_name, font_size, usable_w)` is the
external word-wrap collaborator; it is a parameter
`wrap : List Char → List (List Char)` (the font, size and usable width it
closes over are fixed for one call).  The canvas is modelled by the list
of sealed pages, each page the list of `drawString` calls it received. -/

/-- ReportLab's A4 page size in points: `(21.0*cm, 29.7*cm)` with
`cm = 72/2.54` (the Python floats are the roundings of these exact
rationals). -/
def A4w : ℚ := 21 * 72 / 2.54

/-- A4 page height in points. -/
def A4h : ℚ := 29.7 * 72 / 2.54

/-- The `margins=(left, right, top, bottom)` argument. -/
structure Margins where
  left : ℚ
  right : ℚ
  top : ℚ
  bottom : ℚ
deriving DecidableEq, Repr

/-- The default `margins=(50,50,50,50)`. -/
def defaultMargins : Margins := ⟨50, 50, 50, 50⟩

/-- One `canv.drawString(x, y, text)` call. -/
structure DrawOp where
  x : ℚ
  y : ℚ
  text : List Char
deriving DecidableEq, Repr

/-- A sealed output page: the draw calls it received, in order. -/
abbrev PageOut := List DrawOp

/-- The in-flight canvas state inside one `write_wrapped_page` call:
the cursor `y`, the draw calls on the current page (most recent first),
and the pages already sealed by `showPage`. -/
structure LayoutState where
  y : ℚ
  cur : List DrawOp
  done : List PageOut
deriving DecidableEq, Repr

/-- `line_h = font_size * 1.27`. -/
def lineH (fontSize : ℚ) : ℚ := fontSize * 1.27

/-- Python `str.rstrip()`. -/
def pyRstrip (l : List Char) : List Char :=
  (l.reverse.dropWhile isPyWhite).reverse

/-- Python `str.splitlines()` for `'\n'`-separated text: split at every
line break; a trailing break does not open a final empty line. -/
def splitlinesPy (l : List Char) : List (List Char) :=
  if l = [] then []
  else
    let parts := l.splitOn '\n'
    if l.getLast? = some '\n' then parts.dropLast else parts

/-- Advance the cursor one line height; when it falls below the bottom
margin, seal the current page (`canv.showPage()`) and reset the cursor to
the top margin of a fresh page.  This is the
`y -= line_h; if y < bottom: showPage; y = page_h - top` step. -/
def stepAdvance (m : Margins) (fontSize : ℚ) (st : LayoutState) :
    LayoutState :=
  let y := st.y - lineH fontSize
  if y < m.bottom then
    { y := A4h - m.top, cur := [], done := st.done ++ [st.cur.reverse] }
  else
    { st with y := y }

/-- Draw one display line at `(left, y)` and advance
(`canv.drawString(left, y, w_line)` followed by the advance step). -/
def stepDraw (m : Margins) (fontSize : ℚ) (st : LayoutState)
    (seg : List Char) : LayoutState :=
  stepAdvance m fontSize { st with cur := ⟨m.left, st.y, seg⟩ :: st.cur }

/-- Process one raw input line: rstrip it; a blank line only advances the
cursor; a non-blank line is word-wrapped and each display line drawn. -/
def stepLine (wrap : List Char → List (List Char)) (m : Margins)
    (fontSize : ℚ) (st : LayoutState) (raw : List Char) : LayoutState :=
  let line := pyRstrip raw
  if line.all isPyWhite then stepAdvance m fontSize st
  else (wrap line).foldl (stepDraw m fontSize) st

/-- `write_wrapped_page(text, canv, font_name, font_size, margins)`:
returns the pages this call seals on the canvas.  Blank input seals one
(empty) page at once; otherwise the lines are processed and the final
`canv.showPage()` always seals the current page. -/
def writeWrappedPage (wrap : List Char → List (List Char))
    (fontSize : ℚ) (m : Margins) (text : List Char) : List PageOut :=
  if text.all isPyWhite then [[]]
  else
    let st := (splitlinesPy text).foldl (stepLine wrap m fontSize)
      ⟨A4h - m.top, [], []⟩
    st.done ++ [st.cur.reverse]

/-! ## The pipeline (`VerticalPDFProcessor.process`, source lines 180–218)

PyMuPDF and pytesseract are black boxes: `page.get_pixmap` is modelled as
returning the record of its arguments (matrix, clip, alpha), and
`ocr_half_pixmap`'s engine call (`pytesseract.image_to_string`, reached
through the PNG/PIL marshaling) as a parameter
`engine : RasterSpec → Except E (List Char)` that may raise. -/

/-- A page rectangle (`page.rect`): its width and height. -/
structure PageRect where
  width : ℚ
  height : ℚ
deriving DecidableEq, Repr

/-- A clip rectangle `fitz.Rect(x0, y0, x1, y1)`. -/
structure Rect4 where
  x0 : ℚ
  y0 : ℚ
  x1 : ℚ
  y1 : ℚ
deriving DecidableEq, Repr

/-- The scaling matrix `fitz.Matrix(dpi/72, dpi/72)` (diagonal entries). -/
structure Mat where
  a : ℚ
  d : ℚ
deriving DecidableEq, Repr

/-- A rendered pixmap, recorded as the arguments of
`page.get_pixmap(matrix=m, clip=c, alpha=a)`. -/
structure RasterSpec where
  m : Mat
  clip : Rect4
  alpha : Bool
deriving DecidableEq, Repr

/-- The two clip rectangles of one page (source lines 195–199):
`left_clip = fitz.Rect(0, 0, mid_x, rect.height)` and
`right_clip = fitz.Rect(mid_x, 0, rect.width, rect.height)` with
`mid_x = rect.width / 2.0`. -/
def halfClips (rect : PageRect) : Rect4 × Rect4 :=
  let midX := rect.width / 2
  (⟨0, 0, midX, rect.height⟩, ⟨midX, 0, rect.width, rect.height⟩)

/-- `page.get_pixmap(matrix=m, clip=clip, alpha=alpha)`, recorded. -/
def getPixmap (m : Mat) (clip : Rect4) (alpha : Bool) : RasterSpec :=
  ⟨m, clip, alpha⟩

/-- `ocr_half_pixmap(pixmap, lang="spa")` (source lines 161–167): pure
marshaling of the pixmap to the external engine; no exception handling. -/
def ocrHalfPixmap {E : Type} (engine : RasterSpec → Except E (List Char))
    (pix : RasterSpec) : Except E (List Char) :=
  engine pix

/-- The loop body of `VerticalPDFProcessor.process` for one input page
(source lines 192–212): render both halves, OCR left then right, correct
each, and write each half as its own run of output pages.  Exceptions
from the engine propagate (there is no `try/except` in `process`). -/
def processPage {E : Type} (engine : RasterSpec → Except E (List Char))
    (B : Backends E) (wrap : List Char → List (List Char)) (m : Mat)
    (rect : PageRect) : Except E (List PageOut × List PageOut) := do
  let clips := halfClips rect
  let leftPix := getPixmap m clips.1 false
  let rightPix := getPixmap m clips.2 false
  let leftRaw ← ocrHalfPixmap engine leftPix
  let rightRaw ← ocrHalfPixmap engine rightPix
  let leftText := correctSpanishText B leftRaw
  let rightText := correctSpanishText B rightRaw
  pure (writeWrappedPage wrap 11 defaultMargins leftText,
        writeWrappedPage wrap 11 defaultMargins rightText)

/-- `VerticalPDFProcessor.process` (source lines 180–218): the scaling
matrix is `Matrix(dpi/72, dpi/72)`; pages are visited from
`start_page = 1 if omit_first else 0`; each visited page yields its pair
of half-runs, in order.  The result is the finalized output document
(one entry per visited input page), or the first uncaught exception. -/
def process {E : Type} (dpi : ℚ) (omitFirst : Bool) (doc : List PageRect)
    (engine : RasterSpec → Except E (List Char)) (B : Backends E)
    (wrap : List Char → List (List Char)) :
    Except E (List (List PageOut × List PageOut)) :=
  let m : Mat := ⟨dpi / 72, dpi / 72⟩
  let start := if omitFirst then 1 else 0
  (doc.drop start).mapM (processPage engine B wrap m)

/-! ## Helper lemmas -/

/-- Every call of `write_wrapped_page` seals at least one page: the blank
early return seals one, and the main path ends in an unconditional
`canv.showPage()`. -/
theorem writeWrappedPage_length_pos (wrap : List Char → List (List Char))
    (fontSize : ℚ) (m : Margins) (text : List Char) :
    1 ≤ (writeWrappedPage wrap fontSize m text).length := by
  unfold writeWrappedPage
  split
  · simp
  · simp

/-- The token splits as prefix ++ core ++ suffix: what the two stripping
`while` loops remove recombines to the original token. -/
theorem tok_decomp (tok : List Char) :
    tokPre tok ++ (tokCore tok ++ tokSuf tok) = tok := by
  have h2 : tokCore tok ++ tokSuf tok = tokRest tok := by
    unfold tokCore tokSuf
    rw [← List.reverse_append, List.takeWhile_append_dropWhile,
      List.reverse_reverse]
  rw [h2]
  unfold tokPre tokRest
  exact List.takeWhile_append_dropWhile ..

/-- A token containing a letter has a non-empty core: the letter is
alphanumeric, so neither stripping loop can consume it. -/
theorem tokCore_ne_nil_of_alpha {tok : List Char}
    (h : tok.any pyIsAlpha = true) : tokCore tok ≠ [] := by
  have halnum : ∃ c ∈ tok, pyIsAlnum c = true := by
    rcases List.any_eq_true.mp h with ⟨c, hc, hca⟩
    exact ⟨c, hc, by simp [pyIsAlnum, hca]⟩
  rcases halnum with ⟨c, hc, hca⟩
  have hrest : c ∈ tokRest tok ∨ c ∈ tokPre tok := by
    have := tok_decomp tok
    rw [← this] at hc
    rcases List.mem_append.mp hc with h1 | h2
    · exact Or.inr h1
    · left
      have h2' : tokCore tok ++ tokSuf tok = tokRest tok := by
        unfold tokCore tokSuf
        rw [← List.reverse_append, List.takeWhile_append_dropWhile,
          List.reverse_reverse]
      rw [← h2']
      exact h2
  have hcrest : c ∈ tokRest tok := by
    rcases hrest with h1 | h1
    · exact h1
    · exfalso
      have := List.mem_takeWhile_imp h1
      simp [hca] at this
  intro hnil
  have : ∀ x ∈ (tokRest tok).reverse, (!pyIsAlnum x) = true := by
    rw [← List.dropWhile_eq_nil_iff]
    have : ((tokRest tok).reverse.dropWhile fun c => !pyIsAlnum c).reverse
        = [] := hnil
    simpa using congrArg List.reverse this
  have := this c (by simpa using hcrest)
  simp [hca] at this

/-! ## Claim C6: layout always emits at least one page -/

/-- C6: for every input text — the empty string and whitespace-only
strings included — one call of the layout step seals and emits at least
one output page (the final `showPage` always fires, and blank input seals
a page immediately). -/
theorem C6_layout_emits_at_least_one_page
    (wrap : List Char → List (List Char)) (fontSize : ℚ) (m : Margins)
    (text : List Char) :
    1 ≤ (writeWrappedPage wrap fontSize m text).length :=
  writeWrappedPage_length_pos wrap fontSize m text

/-! ## Claim C7: half-split geometry and uniform scale -/

/-- C7: for a page rectangle of width `w` and height `h`, `process` clips
the left half to `[0, 0, w/2, h]` and the right half to `[w/2, 0, w, h]`
in page coordinates, and renders both halves with the same uniform
`dpi/72` scale on both axes and no alpha channel: the per-page loop body
equals the explicit pipeline over exactly those two raster requests. -/
theorem C7_half_raster_geometry {E : Type} (w h dpi : ℚ)
    (engine : RasterSpec → Except E (List Char)) (B : Backends E)
    (wrap : List Char → List (List Char)) :
    halfClips ⟨w, h⟩ = (⟨0, 0, w / 2, h⟩, ⟨w / 2, 0, w, h⟩) ∧
    processPage engine B wrap ⟨dpi / 72, dpi / 72⟩ ⟨w, h⟩ =
      (do
        let leftRaw ← engine ⟨⟨dpi / 72, dpi / 72⟩, ⟨0, 0, w / 2, h⟩, false⟩
        let rightRaw ← engine ⟨⟨dpi / 72, dpi / 72⟩, ⟨w / 2, 0, w, h⟩, false⟩
        pure (writeWrappedPage wrap 11 defaultMargins
                (correctSpanishText B leftRaw),
              writeWrappedPage wrap 11 defaultMargins
                (correctSpanishText B rightRaw))) :=
  ⟨rfl, rfl⟩

/-! ## Claim C1: grammar-backend failure falls through -/

/-- C1: whenever the grammar backend's check raises on the (normalized)
text of a non-blank input, `correct_spanish_text` swallows the failure
and returns the dictionary backend's word-by-word output — or, with no
dictionary backend, the text unchanged after normalization.  The
function's return type being plain text (not `Except`) is the model-level
statement that no corrector exception reaches the caller. -/
theorem C1_grammar_failure_fallback {E : Type}
    (check : List Char → Except E (List Char))
    (spellc : Option (List Char → Option (List Char)))
    (text : List Char) (e : E)
    (hnb : text.all isPyWhite = false)
    (hfail : check (normalize text) = .error e) :
    correctSpanishText ⟨some check, spellc⟩ text =
      match spellc with
      | some corr => dictCorrect corr (normalize text)
      | none => normalize text := by
  unfold correctSpanishText
  rw [if_neg (by simp [hnb])]
  simp only [hfail]

/-- Witness for C1 at a concrete input: an always-failing grammar checker
together with a concrete dictionary backend. -/
theorem C1_witness :
    ("hola mundo".toList.all isPyWhite = false) ∧
    correctSpanishText
        ⟨some (fun _ => Except.error 0),
         some (fun _ => some "X".toList)⟩ "hola mundo".toList =
      dictCorrect (fun _ => some "X".toList) (normalize "hola mundo".toList) :=
  ⟨by decide,
   C1_grammar_failure_fallback (fun _ => Except.error 0)
     (some (fun _ => some "X".toList)) "hola mundo".toList 0 (by decide) rfl⟩

/-! ## Claim C8: dictionary correction preserves prefix/suffix -/

/-- C8: the dictionary backend re-attaches the leading and trailing runs
of non-alphanumeric characters verbatim around the corrected core, and
tokens with no alphabetic content pass through unchanged. -/
theorem C8_prefix_suffix_preserved
    (corr : List Char → Option (List Char)) (tok : List Char) :
    (tok.any pyIsAlpha = false → correctTok corr tok = tok) ∧
    (tok.any pyIsAlpha = true →
      correctTok corr tok =
        tokPre tok ++ (corr (tokCore tok)).getD (tokCore tok)
          ++ tokSuf tok) := by
  constructor
  · intro h
    unfold correctTok
    simp [h]
  · intro h
    have hne := tokCore_ne_nil_of_alpha h
    unfold correctTok
    rw [if_pos h, if_pos hne]
    cases hc : corr (tokCore tok) with
    | some s => simp
    | none => simpa using (tok_decomp tok).symm

/-- Witness for C8 at the spec's own example token `"¡hola!"`. -/
theorem C8_witness :
    ("¡hola!".toList.any pyIsAlpha = true) ∧
    correctTok (fun c => some (c.map Char.toUpper)) "¡hola!".toList =
      tokPre "¡hola!".toList ++
        ((fun c => some (c.map Char.toUpper)) (tokCore "¡hola!".toList)).getD
          (tokCore "¡hola!".toList) ++ tokSuf "¡hola!".toList :=
  ⟨by decide,
   (C8_prefix_suffix_preserved (fun c => some (c.map Char.toUpper))
     "¡hola!".toList).2 (by decide)⟩

/-! ## Claim C2: recognizer failure on one half -/

/-- If the per-page body returns a result, both engine calls of that page
succeeded (there is no exception handling around the OCR calls). -/
theorem processPage_ok_both_halves {E : Type}
    {engine : RasterSpec → Except E (List Char)} {B : Backends E}
    {wrap : List Char → List (List Char)} {m : Mat} {rect : PageRect}
    {g : List PageOut × List PageOut}
    (h : processPage engine B wrap m rect = .ok g) :
    (∃ t, engine (getPixmap m (halfClips rect).1 false) = .ok t) ∧
    (∃ t, engine (getPixmap m (halfClips rect).2 false) = .ok t) := by
  simp only [processPage, ocrHalfPixmap] at h
  cases hl : engine (getPixmap m (halfClips rect).1 false) with
  | error e => rw [hl] at h; exact absurd h (by simp [Bind.bind, Except.bind])
  | ok lt =>
    rw [hl] at h
    cases hr : engine (getPixmap m (halfClips rect).2 false) with
    | error e =>
      rw [hr] at h; exact absurd h (by simp [Bind.bind, Except.bind])
    | ok rt => exact ⟨⟨lt, rfl⟩, ⟨rt, rfl⟩⟩

/-- If the whole run returns a document, every visited page had both
engine calls succeed. -/
theorem process_ok_all_halves {E : Type}
    {engine : RasterSpec → Except E (List Char)} {B : Backends E}
    {wrap : List Char → List (List Char)} {m : Mat}
    {l : List PageRect} {gs : List (List PageOut × List PageOut)}
    (h : l.mapM (processPage engine B wrap m) = .ok gs) :
    ∀ rect ∈ l,
      (∃ t, engine (getPixmap m (halfClips rect).1 false) = .ok t) ∧
      (∃ t, engine (getPixmap m (halfClips rect).2 false) = .ok t) := by
  induction l generalizing gs with
  | nil => intro rect hr; cases hr
  | cons r rs ih =>
    intro rect hr
    rw [List.mapM_cons] at h
    cases hp : processPage engine B wrap m r with
    | error e =>
      rw [hp] at h
      exact absurd h (by simp [Bind.bind, Except.bind])
    | ok g =>
      rw [hp] at h
      cases hm : rs.mapM (processPage engine B wrap m) with
      | error e =>
        rw [hm] at h
        exact absurd h (by simp [Bind.bind, Except.bind])
      | ok gs' =>
        rcases List.mem_cons.mp hr with rfl | hmem
        · exact processPage_ok_both_halves hp
        · exact ih hm rect hmem

/-- Counterexample to C2: the recognition engine raises on the first half
it is handed (the left half of the only input page — the run aborts
before any further call); the claim requires the pipeline to substitute
empty text for that half, keep going and finalize the output document,
but `process` has no exception handling and aborts with the engine's
exception, emitting no output at all. -/
theorem C2_counterexample :
    process 72 false [⟨100, 200⟩] (fun _ => Except.error (7 : Nat))
      ⟨none, none⟩ (fun l => [l]) = Except.error 7 := rfl

/-- C2 as amended: if the recognition engine raises on either half of any
visited page, the exception propagates out of `process`: the run aborts
with an error and no output document is produced. -/
theorem C2_amended_ocr_failure_aborts {E : Type} (dpi : ℚ)
    (omitFirst : Bool) (doc : List PageRect)
    (engine : RasterSpec → Except E (List Char)) (B : Backends E)
    (wrap : List Char → List (List Char)) (rect : PageRect)
    (hmem : rect ∈ doc.drop (if omitFirst then 1 else 0))
    (hfail :
      (∃ e, engine (getPixmap ⟨dpi / 72, dpi / 72⟩
        (halfClips rect).1 false) = .error e) ∨
      (∃ e, engine (getPixmap ⟨dpi / 72, dpi / 72⟩
        (halfClips rect).2 false) = .error e)) :
    ∃ e, process dpi omitFirst doc engine B wrap = .error e := by
  cases hp : process dpi omitFirst doc engine B wrap with
  | error e => exact ⟨e, rfl⟩
  | ok gs =>
    exfalso
    unfold process at hp
    have := process_ok_all_halves hp rect hmem
    rcases hfail with ⟨e, he⟩ | ⟨e, he⟩
    · rcases this.1 with ⟨t, ht⟩; rw [he] at ht; cases ht
    · rcases this.2 with ⟨t, ht⟩; rw [he] at ht; cases ht

/-- Witness for the amended C2: a concrete one-page document whose
recognition calls fail. -/
theorem C2_amended_witness :
    (⟨100, 200⟩ : PageRect) ∈
      ([⟨100, 200⟩] : List PageRect).drop (if false then 1 else 0) ∧
    ∃ e, process 72 false [⟨100, 200⟩] (fun _ => Except.error (9 : Nat))
      ⟨none, none⟩ (fun l => [l]) = .error e :=
  ⟨List.mem_singleton.mpr rfl,
   C2_amended_ocr_failure_aborts 72 false [⟨100, 200⟩] _ ⟨none, none⟩
     (fun l => [l]) ⟨100, 200⟩ (List.mem_singleton.mpr rfl)
     (Or.inl ⟨9, rfl⟩)⟩

/-! ## Claim C9: three pages, first skipped -/

/-- With a total engine, the per-page body yields the pair of half runs. -/
theorem processPage_ok_of_engine_ok {E : Type}
    {engine : RasterSpec → Except E (List Char)} (B : Backends E)
    (wrap : List Char → List (List Char)) (m : Mat) (rect : PageRect)
    (hok : ∀ s, ∃ t, engine s = .ok t) :
    ∃ lt rt, processPage engine B wrap m rect =
      .ok (writeWrappedPage wrap 11 defaultMargins (correctSpanishText B lt),
           writeWrappedPage wrap 11 defaultMargins
             (correctSpanishText B rt)) := by
  obtain ⟨lt, hl⟩ := hok (getPixmap m (halfClips rect).1 false)
  obtain ⟨rt, hr⟩ := hok (getPixmap m (halfClips rect).2 false)
  refine ⟨lt, rt, ?_⟩
  simp only [processPage, ocrHalfPixmap]
  rw [hl, hr]
  rfl

/-- C9: on a 3-page input with skip-first-page enabled the pipeline
visits input pages 2 and 3 only — the run coincides with processing the
2-page document `[p1, p2]` without skipping — and, when recognition
succeeds everywhere, emits exactly 2 output-page-groups, each holding at
least two output pages (at least one per half, left then right). -/
theorem C9_skip_first_three_pages {E : Type} (p0 p1 p2 : PageRect)
    (dpi : ℚ) (engine : RasterSpec → Except E (List Char))
    (B : Backends E) (wrap : List Char → List (List Char))
    (hok : ∀ s, ∃ t, engine s = .ok t) :
    process dpi true [p0, p1, p2] engine B wrap =
      process dpi false [p1, p2] engine B wrap ∧
    ∃ g1 g2, process dpi true [p0, p1, p2] engine B wrap = .ok [g1, g2] ∧
      1 ≤ g1.1.length ∧ 1 ≤ g1.2.length ∧
      1 ≤ g2.1.length ∧ 1 ≤ g2.2.length := by
  constructor
  · rfl
  · obtain ⟨lt1, rt1, h1⟩ := processPage_ok_of_engine_ok B wrap
      ⟨dpi / 72, dpi / 72⟩ p1 hok
    obtain ⟨lt2, rt2, h2⟩ := processPage_ok_of_engine_ok B wrap
      ⟨dpi / 72, dpi / 72⟩ p2 hok
    refine ⟨⟨writeWrappedPage wrap 11 defaultMargins (correctSpanishText B lt1),
        writeWrappedPage wrap 11 defaultMargins (correctSpanishText B rt1)⟩,
      ⟨writeWrappedPage wrap 11 defaultMargins (correctSpanishText B lt2),
        writeWrappedPage wrap 11 defaultMargins (correctSpanishText B rt2)⟩,
      ?_, writeWrappedPage_length_pos .., writeWrappedPage_length_pos ..,
      writeWrappedPage_length_pos .., writeWrappedPage_length_pos ..⟩
    show List.mapM (processPage engine B wrap ⟨dpi / 72, dpi / 72⟩)
      [p1, p2] = _
    simp only [List.mapM_cons, List.mapM_nil, h1, h2]
    rfl

/-- Witness for C9 at a concrete document and an everywhere-succeeding
engine. -/
theorem C9_witness :
    @process Nat 300 true
        [⟨100, 100⟩, ⟨100, 100⟩, ⟨100, 100⟩]
        (fun _ => Except.ok "hola".toList) ⟨none, none⟩ (fun l => [l]) =
      @process Nat 300 false [⟨100, 100⟩, ⟨100, 100⟩]
        (fun _ => Except.ok "hola".toList) ⟨none, none⟩ (fun l => [l]) ∧
    ∃ g1 g2,
      @process Nat 300 true
          [⟨100, 100⟩, ⟨100, 100⟩, ⟨100, 100⟩]
          (fun _ => Except.ok "hola".toList) ⟨none, none⟩
          (fun l => [l]) = .ok [g1, g2] ∧
      1 ≤ g1.1.length ∧ 1 ≤ g1.2.length ∧
      1 ≤ g2.1.length ∧ 1 ≤ g2.2.length :=
  C9_skip_first_three_pages ⟨100, 100⟩ ⟨100, 100⟩ ⟨100, 100⟩ 300
    (fun _ => Except.ok "hola".toList) ⟨none, none⟩ (fun l => [l])
    (fun _ => ⟨"hola".toList, rfl⟩)

/-! ## Normalization: structure lemmas

The predicates below characterize the fixed points of rules 2–4: no
horizontal whitespace directly before a line break, no three consecutive
line breaks, no two consecutive spaces. -/

/-- No `[ \t]` character immediately followed by `'\n'`. -/
def noHwsNl : List Char → Bool
  | c :: d :: rest => !(isHWs c && d = '\n') && noHwsNl (d :: rest)
  | _ => true

/-- No three consecutive `'\n'` characters. -/
def no3Nl : List Char → Bool
  | a :: b :: c :: rest =>
    !(a = '\n' && b = '\n' && c = '\n') && no3Nl (b :: c :: rest)
  | _ => true

/-- No two consecutive spaces. -/
def noDblSp : List Char → Bool
  | a :: b :: rest => !(a = ' ' && b = ' ') && noDblSp (b :: rest)
  | _ => true

/-- Whether the list begins with `[ \t]*\n` (what the scanner of rule 2
tracks). -/
def startsHwsNl : List Char → Bool
  | [] => false
  | c :: rest => c = '\n' || (isHWs c && startsHwsNl rest)

/-- The number of leading `'\n'` characters (what the scanner of rule 3
tracks, up to the cap). -/
def leadNl : List Char → Nat
  | [] => 0
  | c :: rest => if c = '\n' then leadNl rest + 1 else 0

theorem noHwsNl_cons (x : Char) (l : List Char) :
    noHwsNl (x :: l) =
      ((match l.head? with
        | some d => !(isHWs x && d = '\n')
        | none => true) && noHwsNl l) := by
  cases l <;> simp [noHwsNl]

theorem no3Nl_cons (x : Char) (l : List Char) :
    no3Nl (x :: l) =
      ((match l with
        | a :: b :: _ => !(x = '\n' && a = '\n' && b = '\n')
        | _ => true) && no3Nl l) := by
  match l with
  | [] => simp [no3Nl]
  | [a] => simp [no3Nl]
  | a :: b :: t => simp [no3Nl]

theorem noDblSp_cons (x : Char) (l : List Char) :
    noDblSp (x :: l) =
      ((match l.head? with
        | some d => !(x = ' ' && d = ' ')
        | none => true) && noDblSp l) := by
  cases l <;> simp [noDblSp]

theorem noHwsNl_tail {x : Char} {l : List Char}
    (h : noHwsNl (x :: l) = true) : noHwsNl l = true := by
  rw [noHwsNl_cons] at h
  exact (Bool.and_eq_true_iff.mp h).2

theorem no3Nl_tail {x : Char} {l : List Char}
    (h : no3Nl (x :: l) = true) : no3Nl l = true := by
  rw [no3Nl_cons] at h
  exact (Bool.and_eq_true_iff.mp h).2

theorem noDblSp_tail {x : Char} {l : List Char}
    (h : noDblSp (x :: l) = true) : noDblSp l = true := by
  rw [noDblSp_cons] at h
  exact (Bool.and_eq_true_iff.mp h).2

theorem rule2Aux_cons_nl (rest : List Char) :
    rule2Aux ('\n' :: rest) = ('\n' :: (rule2Aux rest).1, true) := by
  simp [rule2Aux]

theorem rule2Aux_cons_drop {c : Char} {rest : List Char} (hc : c ≠ '\n')
    (hw : isHWs c = true) (hp : (rule2Aux rest).2 = true) :
    rule2Aux (c :: rest) = ((rule2Aux rest).1, true) := by
  simp only [rule2Aux]
  rw [if_neg hc, if_pos (by simp [hw, hp])]

theorem rule2Aux_cons_keep {c : Char} {rest : List Char} (hc : c ≠ '\n')
    (h : isHWs c = false ∨ (rule2Aux rest).2 = false) :
    rule2Aux (c :: rest) = (c :: (rule2Aux rest).1, false) := by
  simp only [rule2Aux]
  rw [if_neg hc, if_neg (by rcases h with h | h <;> simp [h])]

/-- The scanner state of rule 2 is exactly `startsHwsNl`. -/
theorem rule2Aux_snd (l : List Char) :
    (rule2Aux l).2 = startsHwsNl l := by
  induction l with
  | nil => rfl
  | cons c rest ih =>
    by_cases hc : c = '\n'
    · subst hc
      rw [rule2Aux_cons_nl]
      simp [startsHwsNl]
    · by_cases hw : isHWs c = true
      · cases hp : (rule2Aux rest).2 with
        | true =>
          rw [rule2Aux_cons_drop hc hw hp]
          simp [startsHwsNl, hc, hw, ← ih, hp]
        | false =>
          rw [rule2Aux_cons_keep hc (Or.inr hp)]
          simp [startsHwsNl, hc, hw, ← ih, hp]
      · have hw' : isHWs c = false := by simpa using hw
        rw [rule2Aux_cons_keep hc (Or.inl hw')]
        simp [startsHwsNl, hc, hw']

/-- When the input does not start with `[ \t]*\n`, rule 2 keeps its
head. -/
theorem rule2Aux_head {l : List Char} (h : startsHwsNl l = false) :
    (rule2Aux l).1.head? = l.head? := by
  cases l with
  | nil => rfl
  | cons c rest =>
    simp only [startsHwsNl, Bool.or_eq_false_iff, Bool.and_eq_false_iff,
      decide_eq_false_iff_not] at h
    rcases h with ⟨hc, hrest⟩
    rcases hrest with hw | hs
    · rw [rule2Aux_cons_keep hc (Or.inl hw)]
      rfl
    · rw [rule2Aux_cons_keep hc (Or.inr (by rw [rule2Aux_snd]; exact hs))]
      rfl

/-- If a list has no `[ \t]` before `'\n'` and starts with `[ \t]*\n`,
it must start with `'\n'` itself. -/
theorem head_nl_of_startsHwsNl {l : List Char} (hn : noHwsNl l = true)
    (hs : startsHwsNl l = true) : l.head? = some '\n' := by
  induction l with
  | nil => cases hs
  | cons c rest ih =>
    simp only [startsHwsNl, Bool.or_eq_true_iff, Bool.and_eq_true_iff,
      decide_eq_true_eq] at hs
    rcases hs with hc | ⟨hw, hs⟩
    · simp [hc]
    · have hrest := ih (noHwsNl_tail hn) hs
      exfalso
      rw [noHwsNl_cons, hrest] at hn
      simp [hw] at hn

/-- Rule 2 fixes lists with no `[ \t]` before `'\n'`. -/
theorem rule2_fix {l : List Char} (h : noHwsNl l = true) : rule2 l = l := by
  unfold rule2
  induction l with
  | nil => rfl
  | cons c rest ih =>
    have htail := noHwsNl_tail h
    by_cases hc : c = '\n'
    · subst hc
      rw [rule2Aux_cons_nl]
      simp [ih htail]
    · by_cases hw : isHWs c = true
      · have hs : startsHwsNl rest = false := by
          cases h' : startsHwsNl rest
          · rfl
          · exfalso
            have := head_nl_of_startsHwsNl htail h'
            rw [noHwsNl_cons, this] at h
            simp [hw] at h
        rw [rule2Aux_cons_keep hc (Or.inr (by rw [rule2Aux_snd]; exact hs))]
        simp [ih htail]
      · rw [rule2Aux_cons_keep hc (Or.inl (by simpa using hw))]
        simp [ih htail]

/-- Rule 2's output has no `[ \t]` before `'\n'`. -/
theorem rule2_noHwsNl (l : List Char) : noHwsNl (rule2 l) = true := by
  unfold rule2
  induction l with
  | nil => rfl
  | cons c rest ih =>
    by_cases hc : c = '\n'
    · subst hc
      rw [rule2Aux_cons_nl, noHwsNl_cons]
      refine Bool.and_eq_true_iff.mpr ⟨?_, ih⟩
      cases (rule2Aux rest).1.head? <;> simp [isHWs]
    · by_cases hp : (rule2Aux rest).2 = true
      · by_cases hw : isHWs c = true
        · rw [rule2Aux_cons_drop hc hw hp]
          exact ih
        · rw [rule2Aux_cons_keep hc (Or.inl (by simpa using hw)),
            noHwsNl_cons]
          refine Bool.and_eq_true_iff.mpr ⟨?_, ih⟩
          cases (rule2Aux rest).1.head? <;> simp [by simpa using hw]
      · have hp' : (rule2Aux rest).2 = false := by simpa using hp
        rw [rule2Aux_cons_keep hc (Or.inr hp'), noHwsNl_cons]
        refine Bool.and_eq_true_iff.mpr ⟨?_, ih⟩
        have hs : startsHwsNl rest = false := by
          rw [← rule2Aux_snd]; exact hp'
        rw [rule2Aux_head hs]
        cases hr : rest.head? with
        | none => rfl
        | some d =>
          by_cases hd : d = '\n'
          · exfalso
            subst hd
            cases rest with
            | nil => cases hr
            | cons r t =>
              simp only [List.head?, Option.some.injEq] at hr
              rw [hr] at hs
              simp [startsHwsNl] at hs
          · simp [hd]

theorem rule3Aux_cons_other {c : Char} {rest : List Char}
    (hc : c ≠ '\n') :
    rule3Aux (c :: rest) = (c :: (rule3Aux rest).1, 0) := by
  simp only [rule3Aux]
  rw [if_neg hc]

theorem rule3Aux_cons_drop {rest : List Char}
    (hk : 2 ≤ (rule3Aux rest).2) :
    rule3Aux ('\n' :: rest) = ((rule3Aux rest).1, (rule3Aux rest).2) := by
  simp only [rule3Aux, if_pos rfl, if_true]
  rw [if_pos hk]

theorem rule3Aux_cons_keep {rest : List Char}
    (hk : ¬ 2 ≤ (rule3Aux rest).2) :
    rule3Aux ('\n' :: rest) =
      ('\n' :: (rule3Aux rest).1, (rule3Aux rest).2 + 1) := by
  simp only [rule3Aux, if_pos rfl, if_true]
  rw [if_neg hk]

/-- The scanner state of rule 3 is the leading-newline count capped
at 2. -/
theorem rule3Aux_snd (l : List Char) :
    (rule3Aux l).2 = min (leadNl l) 2 := by
  induction l with
  | nil => rfl
  | cons c rest ih =>
    by_cases hc : c = '\n'
    · subst hc
      by_cases hk : 2 ≤ (rule3Aux rest).2
      · rw [rule3Aux_cons_drop hk]
        rw [ih] at hk ⊢
        simp only [leadNl, if_pos rfl, if_true]
        omega
      · rw [rule3Aux_cons_keep hk]
        rw [ih] at hk ⊢
        simp only [leadNl, if_pos rfl, if_true]
        omega
    · rw [rule3Aux_cons_other hc]
      simp [leadNl, hc]

/-- Rule 3 keeps the head of its input. -/
theorem rule3Aux_head (l : List Char) :
    (rule3Aux l).1.head? = l.head? := by
  induction l with
  | nil => rfl
  | cons c rest ih =>
    by_cases hc : c = '\n'
    · subst hc
      by_cases hk : 2 ≤ (rule3Aux rest).2
      · rw [rule3Aux_cons_drop hk]
        have : 2 ≤ leadNl rest := by
          rw [rule3Aux_snd] at hk; omega
        have hhd : rest.head? = some '\n' := by
          cases rest with
          | nil => simp [leadNl] at this
          | cons r t =>
            by_cases hr : r = '\n'
            · simp [hr]
            · simp [leadNl, hr] at this
        simp [ih, hhd]
      · rw [rule3Aux_cons_keep hk]
        rfl
    · rw [rule3Aux_cons_other hc]
      rfl

/-- The output of rule 3 starts with exactly the capped run the scanner
reports. -/
theorem rule3Aux_leadNl (l : List Char) :
    leadNl (rule3Aux l).1 = (rule3Aux l).2 := by
  induction l with
  | nil => rfl
  | cons c rest ih =>
    by_cases hc : c = '\n'
    · subst hc
      by_cases hk : 2 ≤ (rule3Aux rest).2
      · rw [rule3Aux_cons_drop hk]
        exact ih
      · rw [rule3Aux_cons_keep hk]
        simp [leadNl, ih]
    · rw [rule3Aux_cons_other hc]
      simp [leadNl, hc]

/-- Rule 3's output has no three consecutive line breaks. -/
theorem rule3_no3Nl (l : List Char) : no3Nl (rule3 l) = true := by
  unfold rule3
  induction l with
  | nil => rfl
  | cons c rest ih =>
    by_cases hc : c = '\n'
    · subst hc
      by_cases hk : 2 ≤ (rule3Aux rest).2
      · rw [rule3Aux_cons_drop hk]
        exact ih
      · rw [rule3Aux_cons_keep hk, no3Nl_cons]
        refine Bool.and_eq_true_iff.mpr ⟨?_, ih⟩
        match hout : (rule3Aux rest).1 with
        | [] => rfl
        | [a] => rfl
        | a :: b :: t =>
          by_cases ha : a = '\n'
          · by_cases hb : b = '\n'
            · exfalso
              have := rule3Aux_leadNl rest
              rw [hout, ha, hb] at this
              simp [leadNl] at this
              omega
            · simp [hb]
          · simp [ha]
    · rw [rule3Aux_cons_other hc]
      rw [no3Nl_cons]
      refine Bool.and_eq_true_iff.mpr ⟨?_, ih⟩
      match (rule3Aux rest).1 with
      | [] => rfl
      | [a] => rfl
      | a :: b :: t => simp [hc]

/-- Rule 3 fixes lists with no three consecutive line breaks. -/
theorem rule3_fix {l : List Char} (h : no3Nl l = true) : rule3 l = l := by
  unfold rule3
  induction l with
  | nil => rfl
  | cons c rest ih =>
    have htail := no3Nl_tail h
    by_cases hc : c = '\n'
    · subst hc
      by_cases hk : 2 ≤ (rule3Aux rest).2
      · exfalso
        have h2 : 2 ≤ leadNl rest := by
          rw [rule3Aux_snd] at hk; omega
        obtain ⟨t, ht⟩ : ∃ t, rest = '\n' :: '\n' :: t := by
          cases rest with
          | nil => simp [leadNl] at h2
          | cons r s =>
            by_cases hr : r = '\n'
            · subst hr
              cases s with
              | nil => simp [leadNl] at h2
              | cons r2 s2 =>
                by_cases hr2 : r2 = '\n'
                · subst hr2; exact ⟨s2, rfl⟩
                · simp [leadNl, hr2] at h2
            · simp [leadNl, hr] at h2
        rw [ht] at h
        simp [no3Nl] at h
      · rw [rule3Aux_cons_keep hk]
        simp [ih htail]
    · rw [rule3Aux_cons_other hc]
      simp [ih htail]

/-- Rule 3 preserves the absence of `[ \t]` before `'\n'`. -/
theorem rule3_noHwsNl {l : List Char} (h : noHwsNl l = true) :
    noHwsNl (rule3 l) = true := by
  unfold rule3
  induction l with
  | nil => rfl
  | cons c rest ih =>
    have htail := noHwsNl_tail h
    by_cases hc : c = '\n'
    · subst hc
      by_cases hk : 2 ≤ (rule3Aux rest).2
      · rw [rule3Aux_cons_drop hk]
        exact ih htail
      · rw [rule3Aux_cons_keep hk, noHwsNl_cons]
        refine Bool.and_eq_true_iff.mpr ⟨?_, ih htail⟩
        cases (rule3Aux rest).1.head? <;> simp [isHWs]
    · rw [rule3Aux_cons_other hc, noHwsNl_cons]
      refine Bool.and_eq_true_iff.mpr ⟨?_, ih htail⟩
      rw [rule3Aux_head]
      cases hr : rest.head? with
      | none => rfl
      | some d =>
        by_cases hd : d = '\n'
        · subst hd
          rw [noHwsNl_cons, hr] at h
          have := (Bool.and_eq_true_iff.mp h).1
          simpa using this
        · simp [hd]

theorem rule4Aux_cons_other {c : Char} {rest : List Char} (hc : c ≠ ' ') :
    rule4Aux (c :: rest) = (c :: (rule4Aux rest).1, false) := by
  simp only [rule4Aux]
  rw [if_neg hc]

theorem rule4Aux_cons_drop {rest : List Char}
    (hs : (rule4Aux rest).2 = true) :
    rule4Aux (' ' :: rest) = ((rule4Aux rest).1, true) := by
  simp only [rule4Aux, if_pos rfl, if_true]
  rw [if_pos hs]

theorem rule4Aux_cons_keep {rest : List Char}
    (hs : (rule4Aux rest).2 = false) :
    rule4Aux (' ' :: rest) = (' ' :: (rule4Aux rest).1, true) := by
  simp only [rule4Aux, if_pos rfl, if_true]
  rw [if_neg (by simp [hs])]

/-- The scanner state of rule 4 records whether the input starts with a
space. -/
theorem rule4Aux_snd (l : List Char) :
    (rule4Aux l).2 = (l.head? = some ' ' : Bool) := by
  induction l with
  | nil => rfl
  | cons c rest ih =>
    by_cases hc : c = ' '
    · subst hc
      cases hs : (rule4Aux rest).2
      · rw [rule4Aux_cons_keep hs]
        simp
      · rw [rule4Aux_cons_drop hs]
        simp
    · rw [rule4Aux_cons_other hc]
      simp [hc]

/-- Rule 4 keeps the head of its input. -/
theorem rule4Aux_head (l : List Char) :
    (rule4Aux l).1.head? = l.head? := by
  induction l with
  | nil => rfl
  | cons c rest ih =>
    by_cases hc : c = ' '
    · subst hc
      cases hs : (rule4Aux rest).2
      · rw [rule4Aux_cons_keep hs]
        rfl
      · rw [rule4Aux_cons_drop hs]
        have : rest.head? = some ' ' := by
          have := rule4Aux_snd rest
          rw [hs] at this
          simpa using this.symm
        simp [ih, this]
    · rw [rule4Aux_cons_other hc]
      rfl

/-- Rule 4's output has no two consecutive spaces. -/
theorem rule4_noDblSp (l : List Char) : noDblSp (rule4 l) = true := by
  unfold rule4
  induction l with
  | nil => rfl
  | cons c rest ih =>
    by_cases hc : c = ' '
    · subst hc
      cases hs : (rule4Aux rest).2
      · rw [rule4Aux_cons_keep hs, noDblSp_cons]
        refine Bool.and_eq_true_iff.mpr ⟨?_, ih⟩
        rw [rule4Aux_head]
        have hhd : rest.head? ≠ some ' ' := by
          have := rule4Aux_snd rest
          rw [hs] at this
          intro hcon
          rw [hcon] at this
          simp at this
        cases hr : rest.head? with
        | none => rfl
        | some d =>
          have : d ≠ ' ' := by
            intro hd; subst hd; exact hhd hr
          simp [this]
      · rw [rule4Aux_cons_drop hs]
        exact ih
    · rw [rule4Aux_cons_other hc, noDblSp_cons]
      refine Bool.and_eq_true_iff.mpr ⟨?_, ih⟩
      cases (rule4Aux rest).1.head? <;> simp [hc]

/-- Rule 4 fixes lists with no two consecutive spaces. -/
theorem rule4_fix {l : List Char} (h : noDblSp l = true) : rule4 l = l := by
  unfold rule4
  induction l with
  | nil => rfl
  | cons c rest ih =>
    have htail := noDblSp_tail h
    by_cases hc : c = ' '
    · subst hc
      cases hs : (rule4Aux rest).2
      · rw [rule4Aux_cons_keep hs]
        simp [ih htail]
      · exfalso
        have := rule4Aux_snd rest
        rw [hs] at this
        have hhd : rest.head? = some ' ' := by simpa using this.symm
        obtain ⟨t, ht⟩ : ∃ t, rest = ' ' :: t := by
          cases rest with
          | nil => cases hhd
          | cons r s =>
            have hr : r = ' ' := by simpa using hhd
            exact ⟨s, by rw [hr]⟩
        rw [ht] at h
        simp [noDblSp] at h
    · rw [rule4Aux_cons_other hc]
      show c :: (rule4Aux rest).1 = c :: rest
      rw [ih htail]

/-- Rule 4 preserves the absence of `[ \t]` before `'\n'`. -/
theorem rule4_noHwsNl {l : List Char} (h : noHwsNl l = true) :
    noHwsNl (rule4 l) = true := by
  unfold rule4
  induction l with
  | nil => rfl
  | cons c rest ih =>
    have htail := noHwsNl_tail h
    have hpair : ∀ d, rest.head? = some d → (isHWs c && d = '\n') = false := by
      intro d hd
      rw [noHwsNl_cons, hd] at h
      exact Bool.eq_false_iff.mpr fun hcon => by
        simp [hcon] at h
    by_cases hc : c = ' '
    · subst hc
      cases hs : (rule4Aux rest).2
      · rw [rule4Aux_cons_keep hs, noHwsNl_cons]
        refine Bool.and_eq_true_iff.mpr ⟨?_, ih htail⟩
        rw [rule4Aux_head]
        cases hr : rest.head? with
        | none => rfl
        | some d => simp [hpair d hr]
      · rw [rule4Aux_cons_drop hs]
        exact ih htail
    · rw [rule4Aux_cons_other hc, noHwsNl_cons]
      refine Bool.and_eq_true_iff.mpr ⟨?_, ih htail⟩
      rw [rule4Aux_head]
      cases hr : rest.head? with
      | none => rfl
      | some d => simp [hpair d hr]

/-- Rule 4 preserves the absence of three consecutive line breaks. -/
theorem rule4_no3Nl {l : List Char} (h : no3Nl l = true) :
    no3Nl (rule4 l) = true := by
  unfold rule4
  induction l with
  | nil => rfl
  | cons c rest ih =>
    have htail := no3Nl_tail h
    by_cases hc : c = ' '
    · subst hc
      cases hs : (rule4Aux rest).2
      · rw [rule4Aux_cons_keep hs, no3Nl_cons]
        refine Bool.and_eq_true_iff.mpr ⟨?_, ih htail⟩
        match (rule4Aux rest).1 with
        | [] => rfl
        | [a] => rfl
        | a :: b :: t => simp
      · rw [rule4Aux_cons_drop hs]
        exact ih htail
    · rw [rule4Aux_cons_other hc, no3Nl_cons]
      refine Bool.and_eq_true_iff.mpr ⟨?_, ih htail⟩
      by_cases hcn : c = '\n'
      · subst hcn
        match hout : (rule4Aux rest).1 with
        | [] => rfl
        | [a] => rfl
        | a :: b :: t =>
          by_cases ha : a = '\n'
          · subst ha
            have hhd : rest.head? = some '\n' := by
              rw [← rule4Aux_head, hout]; rfl
            obtain ⟨s, hrest⟩ : ∃ s, rest = '\n' :: s := by
              cases rest with
              | nil => cases hhd
              | cons r s => exact ⟨s, by rw [Option.some.inj hhd]⟩
            by_cases hb : b = '\n'
            · subst hb
              exfalso
              have hsecond : s.head? = some '\n' := by
                have h4 : rule4Aux ('\n' :: s) =
                    ('\n' :: (rule4Aux s).1, false) :=
                  rule4Aux_cons_other (by decide)
                rw [hrest, h4] at hout
                have hthis : (rule4Aux s).1 = '\n' :: t := by
                  have := congrArg List.tail hout
                  simpa using this
                rw [← rule4Aux_head, hthis]
                rfl
              obtain ⟨u, hu⟩ : ∃ u, s = '\n' :: u := by
                cases s with
                | nil => cases hsecond
                | cons x u => exact ⟨u, by rw [Option.some.inj hsecond]⟩
              rw [hrest, hu] at h
              simp [no3Nl] at h
            · simp [hb]
          · simp [ha]
      · match (rule4Aux rest).1 with
        | [] => rfl
        | [a] => rfl
        | a :: b :: t => simp [hcn]

/-- Rule 1 fixes hyphen-free lists. -/
theorem rule1_fix {l : List Char} (h : '-' ∉ l) : rule1 l = l := by
  induction l using rule1.induct with
  | case1 rest ih => simp at h
  | case2 c rest hne ih =>
    have : '-' ∉ rest := fun hm => h (List.mem_cons_of_mem c hm)
    rw [rule1]
    · rw [ih this]
    · exact hne
  | case3 => rfl

/-- Rule 2 only deletes characters. -/
theorem rule2_mem {l : List Char} {x : Char} (h : x ∈ (rule2Aux l).1) :
    x ∈ l := by
  induction l with
  | nil => cases h
  | cons c rest ih =>
    by_cases hc : c = '\n'
    · subst hc
      rw [rule2Aux_cons_nl] at h
      rcases List.mem_cons.mp h with rfl | hm
      · exact List.mem_cons_self ..
      · exact List.mem_cons_of_mem _ (ih hm)
    · by_cases hw : isHWs c = true
      · by_cases hp : (rule2Aux rest).2 = true
        · rw [rule2Aux_cons_drop hc hw hp] at h
          exact List.mem_cons_of_mem _ (ih h)
        · rw [rule2Aux_cons_keep hc (Or.inr (by simpa using hp))] at h
          rcases List.mem_cons.mp h with rfl | hm
          · exact List.mem_cons_self ..
          · exact List.mem_cons_of_mem _ (ih hm)
      · rw [rule2Aux_cons_keep hc (Or.inl (by simpa using hw))] at h
        rcases List.mem_cons.mp h with rfl | hm
        · exact List.mem_cons_self ..
        · exact List.mem_cons_of_mem _ (ih hm)

/-- Rule 3 only deletes characters. -/
theorem rule3_mem {l : List Char} {x : Char} (h : x ∈ (rule3Aux l).1) :
    x ∈ l := by
  induction l with
  | nil => cases h
  | cons c rest ih =>
    by_cases hc : c = '\n'
    · subst hc
      by_cases hk : 2 ≤ (rule3Aux rest).2
      · rw [rule3Aux_cons_drop hk] at h
        exact List.mem_cons_of_mem _ (ih h)
      · rw [rule3Aux_cons_keep hk] at h
        rcases List.mem_cons.mp h with rfl | hm
        · exact List.mem_cons_self ..
        · exact List.mem_cons_of_mem _ (ih hm)
    · rw [rule3Aux_cons_other hc] at h
      rcases List.mem_cons.mp h with rfl | hm
      · exact List.mem_cons_self ..
      · exact List.mem_cons_of_mem _ (ih hm)

/-- Rule 4 only deletes characters. -/
theorem rule4_mem {l : List Char} {x : Char} (h : x ∈ (rule4Aux l).1) :
    x ∈ l := by
  induction l with
  | nil => cases h
  | cons c rest ih =>
    by_cases hc : c = ' '
    · subst hc
      cases hs : (rule4Aux rest).2
      · rw [rule4Aux_cons_keep hs] at h
        rcases List.mem_cons.mp h with rfl | hm
        · exact List.mem_cons_self ..
        · exact List.mem_cons_of_mem _ (ih hm)
      · rw [rule4Aux_cons_drop hs] at h
        exact List.mem_cons_of_mem _ (ih h)
    · rw [rule4Aux_cons_other hc] at h
      rcases List.mem_cons.mp h with rfl | hm
      · exact List.mem_cons_self ..
      · exact List.mem_cons_of_mem _ (ih hm)

/-! ## Claim C3: idempotence of normalization -/

/-- Counterexample to C3: normalization is not idempotent.  On
`"a- \nb"`, rule 2 removes the space and creates a fresh hyphen+break
pair which only a second pass of rule 1 deletes: one pass yields
`"a-\nb"`, a second pass yields `"ab"`. -/
theorem C3_counterexample :
    normalize (normalize "a- \nb".toList) ≠ normalize "a- \nb".toList := by
  decide

/-- C3 as amended: the normalization pass is idempotent on every input
that contains no hyphen (the non-idempotence is exactly the rule-2/rule-1
interaction on hyphens; rules 2–4 alone reach a fixed point in one
pass). -/
theorem C3_amended_idempotent_without_hyphen (l : List Char)
    (h : '-' ∉ l) : normalize (normalize l) = normalize l := by
  have h1 : rule1 l = l := rule1_fix h
  have hm : normalize l = rule4 (rule3 (rule2 l)) := by
    unfold normalize; rw [h1]
  have hmNoMinus : '-' ∉ normalize l := by
    rw [hm]
    intro hmem
    exact h (rule2_mem (rule3_mem (rule4_mem hmem)))
  have hmHws : noHwsNl (normalize l) = true := by
    rw [hm]
    exact rule4_noHwsNl (rule3_noHwsNl (rule2_noHwsNl l))
  have hm3 : no3Nl (normalize l) = true := by
    rw [hm]
    exact rule4_no3Nl (rule3_no3Nl (rule2 l))
  have hmDbl : noDblSp (normalize l) = true := by
    rw [hm]
    exact rule4_noDblSp (rule3 (rule2 l))
  calc normalize (normalize l)
      = rule4 (rule3 (rule2 (rule1 (normalize l)))) := rfl
    _ = rule4 (rule3 (rule2 (normalize l))) := by rw [rule1_fix hmNoMinus]
    _ = rule4 (rule3 (normalize l)) := by
        rw [show rule2 (normalize l) = normalize l from rule2_fix hmHws]
    _ = rule4 (normalize l) := by
        rw [show rule3 (normalize l) = normalize l from rule3_fix hm3]
    _ = normalize l := rule4_fix hmDbl

/-- Witness for the amended C3 at a concrete hyphen-free input. -/
theorem C3_amended_witness :
    ('-' ∉ "ola  k\n\n\n\nx \n".toList) ∧
    normalize (normalize "ola  k\n\n\n\nx \n".toList) =
      normalize "ola  k\n\n\n\nx \n".toList :=
  ⟨by decide,
   C3_amended_idempotent_without_hyphen "ola  k\n\n\n\nx \n".toList
     (by decide)⟩

/-! ## Claim C4: what rule 4 collapses -/

/-- Counterexample to C4: the fourth rewrite is `re.sub(r"[ ]{2,}", " ")`
— spaces only.  A run of two tabs (away from any line break) passes
through normalization unchanged instead of collapsing to one space. -/
theorem C4_counterexample :
    normalize "a\t\tb".toList = "a\t\tb".toList ∧
    "a\t\tb".toList ≠ "a b".toList := by
  constructor
  · decide
  · decide

/-- C4 as amended: rule 4 collapses every run of two or more consecutive
spaces to a single space (no two adjacent spaces survive normalization),
but tab runs are not collapsed — a tab run away from a line break is
preserved verbatim. -/
theorem C4_amended_space_runs_only :
    (∀ l : List Char, noDblSp (normalize l) = true) ∧
    normalize "a   b".toList = "a b".toList ∧
    normalize "a\t\tb".toList = "a\t\tb".toList :=
  ⟨fun l => by unfold normalize; exact rule4_noDblSp (rule3 (rule2 (rule1 l))),
   by decide, by decide⟩

/-! ## Claim C10: draw coordinates stay inside the margins -/

/-- A draw call in bounds: at the left margin, and vertically between the
bottom margin and the top-margin start position. -/
def opOK (m : Margins) (op : DrawOp) : Prop :=
  op.x = m.left ∧ m.bottom ≤ op.y ∧ op.y ≤ A4h - m.top

/-- Invariant carried by the layout loop: the cursor stays between the
bottom margin and the top-margin start, and every draw recorded so far is
in bounds. -/
def stInv (m : Margins) (st : LayoutState) : Prop :=
  m.bottom ≤ st.y ∧ st.y ≤ A4h - m.top ∧
  (∀ op ∈ st.cur, opOK m op) ∧
  (∀ pg ∈ st.done, ∀ op ∈ pg, opOK m op)

theorem lineH_nonneg {fontSize : ℚ} (h : 0 ≤ fontSize) :
    0 ≤ lineH fontSize := by
  unfold lineH
  have h127 : (0 : ℚ) ≤ 1.27 := by norm_num
  exact mul_nonneg h h127

theorem stepAdvance_inv {m : Margins} {fontSize : ℚ} {st : LayoutState}
    (hTop : m.bottom ≤ A4h - m.top) (hFS : 0 ≤ fontSize)
    (hst : stInv m st) : stInv m (stepAdvance m fontSize st) := by
  obtain ⟨hb, ht, hcur, hdone⟩ := hst
  unfold stepAdvance
  by_cases hy : st.y - lineH fontSize < m.bottom
  · rw [if_pos hy]
    refine ⟨hTop, le_refl _, by simp, ?_⟩
    intro pg hpg op hop
    rcases List.mem_append.mp hpg with h1 | h2
    · exact hdone pg h1 op hop
    · rw [List.mem_singleton.mp h2] at hop
      exact hcur op (List.mem_reverse.mp hop)
  · rw [if_neg hy]
    have hlh := lineH_nonneg hFS
    refine ⟨?_, ?_, hcur, hdone⟩
    · show m.bottom ≤ st.y - lineH fontSize
      linarith [not_lt.mp hy]
    · show st.y - lineH fontSize ≤ A4h - m.top
      linarith

theorem stepDraw_inv {m : Margins} {fontSize : ℚ} {st : LayoutState}
    {seg : List Char}
    (hTop : m.bottom ≤ A4h - m.top) (hFS : 0 ≤ fontSize)
    (hst : stInv m st) : stInv m (stepDraw m fontSize st seg) := by
  obtain ⟨hb, ht, hcur, hdone⟩ := hst
  unfold stepDraw
  refine stepAdvance_inv hTop hFS ⟨hb, ht, ?_, hdone⟩
  intro op hop
  rcases List.mem_cons.mp hop with rfl | hm
  · exact ⟨rfl, hb, ht⟩
  · exact hcur op hm

theorem foldl_stepDraw_inv {m : Margins} {fontSize : ℚ}
    (hTop : m.bottom ≤ A4h - m.top) (hFS : 0 ≤ fontSize)
    (segs : List (List Char)) :
    ∀ st : LayoutState, stInv m st →
      stInv m (segs.foldl (stepDraw m fontSize) st) := by
  induction segs with
  | nil => intro st hst; exact hst
  | cons s t ih =>
    intro st hst
    exact ih _ (stepDraw_inv hTop hFS hst)

theorem stepLine_inv {m : Margins} {fontSize : ℚ}
    {wrap : List Char → List (List Char)} {st : LayoutState}
    {raw : List Char}
    (hTop : m.bottom ≤ A4h - m.top) (hFS : 0 ≤ fontSize)
    (hst : stInv m st) : stInv m (stepLine wrap m fontSize st raw) := by
  unfold stepLine
  by_cases hblank : ((pyRstrip raw).all isPyWhite : Bool) = true
  · rw [if_pos hblank]
    exact stepAdvance_inv hTop hFS hst
  · rw [if_neg hblank]
    exact foldl_stepDraw_inv hTop hFS _ st hst

theorem foldl_stepLine_inv {m : Margins} {fontSize : ℚ}
    {wrap : List Char → List (List Char)}
    (hTop : m.bottom ≤ A4h - m.top) (hFS : 0 ≤ fontSize)
    (lines : List (List Char)) :
    ∀ st : LayoutState, stInv m st →
      stInv m (lines.foldl (stepLine wrap m fontSize) st) := by
  induction lines with
  | nil => intro st hst; exact hst
  | cons ln t ih =>
    intro st hst
    exact ih _ (stepLine_inv hTop hFS hst)

/-- C10: in every execution of the layout step (with sane style: the
top-margin start at or above the bottom margin, non-negative font size),
every display line is drawn at `x` equal to the left margin and at a `y`
between the bottom margin and the page height minus the top margin,
inclusive. -/
theorem C10_draw_coordinates_in_bounds
    (wrap : List Char → List (List Char)) (fontSize : ℚ) (m : Margins)
    (text : List Char)
    (hTop : m.bottom ≤ A4h - m.top) (hFS : 0 ≤ fontSize) :
    ∀ page ∈ writeWrappedPage wrap fontSize m text, ∀ op ∈ page,
      op.x = m.left ∧ m.bottom ≤ op.y ∧ op.y ≤ A4h - m.top := by
  intro page hpage op hop
  unfold writeWrappedPage at hpage
  by_cases hblank : (text.all isPyWhite : Bool) = true
  · rw [if_pos hblank] at hpage
    rw [List.mem_singleton.mp hpage] at hop
    cases hop
  · rw [if_neg hblank] at hpage
    have hst : stInv m ((splitlinesPy text).foldl
        (stepLine wrap m fontSize) ⟨A4h - m.top, [], []⟩) :=
      foldl_stepLine_inv hTop hFS _ _
        ⟨hTop, le_refl _, by simp, by simp⟩
    obtain ⟨hb, ht, hcur, hdone⟩ := hst
    rcases List.mem_append.mp hpage with h1 | h2
    · exact hdone page h1 op hop
    · rw [List.mem_singleton.mp h2] at hop
      exact hcur op (List.mem_reverse.mp hop)

attribute [local semireducible] Rat.add Rat.sub Rat.mul Rat.inv
  Rat.ofScientific in
/-- Witness for C10 at the default style and a concrete text. -/
theorem C10_witness :
    (defaultMargins.bottom ≤ A4h - defaultMargins.top ∧ (0 : ℚ) ≤ 11) ∧
    ∀ page ∈ writeWrappedPage (fun l => [l]) 11 defaultMargins
      "hola\n\nmundo".toList, ∀ op ∈ page,
      op.x = defaultMargins.left ∧ defaultMargins.bottom ≤ op.y ∧
        op.y ≤ A4h - defaultMargins.top :=
  ⟨⟨by decide, by decide⟩,
   C10_draw_coordinates_in_bounds (fun l => [l]) 11 defaultMargins
     "hola\n\nmundo".toList (by decide) (by decide)⟩

/-! ## Claim C5: how the page count depends on the text

The layout loop advances the cursor once per blank line and once per
wrapped display line, sealing a page every `pageCapacity` advances; the
page count is a function of the advance count alone, not of the
character length. -/

/-- Number of cursor advances one raw input line causes: one for a blank
line, one per display line otherwise. -/
def lineAdvances (wrap : List Char → List (List Char)) (raw : List Char) :
    Nat :=
  let line := pyRstrip raw
  if line.all isPyWhite then 1 else (wrap line).length

/-- Total number of cursor advances of a text. -/
def textAdvances (wrap : List Char → List (List Char)) (text : List Char) :
    Nat :=
  ((splitlinesPy text).map (lineAdvances wrap)).sum

/-- Number of cursor advances that fit on one page before the bottom
margin forces a break: the least `k ≥ 1` with
`(A4h - top) - k·lineH < bottom`. -/
def pageCapacity (fontSize : ℚ) (m : Margins) : Nat :=
  (⌊((A4h - m.top) - m.bottom) / lineH fontSize⌋).toNat + 1

/-- The pagination abstracted: a state `(r, b)` of advances on the
current page and sealed pages; each advance either moves within the page
or seals it. -/
def advCounter (K : Nat) (s : Nat × Nat) : Nat × Nat :=
  if s.1 + 1 = K then (0, s.2 + 1) else (s.1 + 1, s.2)

theorem pageCapacity_pos (fontSize : ℚ) (m : Margins) :
    1 ≤ pageCapacity fontSize m := by
  unfold pageCapacity
  omega

/-- After `pageCapacity` advances the cursor is below the bottom
margin. -/
theorem pageCapacity_breaks {fontSize : ℚ} {m : Margins}
    (hL : 0 < lineH fontSize) :
    (A4h - m.top) - (pageCapacity fontSize m : ℚ) * lineH fontSize <
      m.bottom := by
  set q : ℚ := ((A4h - m.top) - m.bottom) / lineH fontSize with hq
  have hKq : q < (pageCapacity fontSize m : ℚ) := by
    unfold pageCapacity
    push_cast
    have h1 : (⌊q⌋ : ℤ) ≤ ⌊q⌋.toNat := Int.self_le_toNat ⌊q⌋
    have h1' : ((⌊q⌋ : ℤ) : ℚ) ≤ ((⌊q⌋.toNat : ℤ) : ℚ) := by
      exact_mod_cast h1
    have h2 : q < (⌊q⌋ : ℚ) + 1 := Int.lt_floor_add_one q
    push_cast at h1'
    linarith
  have h3 : q * lineH fontSize <
      (pageCapacity fontSize m : ℚ) * lineH fontSize :=
    mul_lt_mul_of_pos_right hKq hL
  rw [hq, div_mul_cancel₀ _ (ne_of_gt hL)] at h3
  linarith

/-- Before `pageCapacity` advances the cursor is still at or above the
bottom margin. -/
theorem pageCapacity_no_break {fontSize : ℚ} {m : Margins}
    (hL : 0 < lineH fontSize) {r : Nat}
    (hr : r + 1 < pageCapacity fontSize m) :
    m.bottom ≤ (A4h - m.top) - ((r : ℚ) + 1) * lineH fontSize := by
  set q : ℚ := ((A4h - m.top) - m.bottom) / lineH fontSize with hq
  have h1 : r + 1 ≤ ⌊q⌋.toNat := by
    unfold pageCapacity at hr
    rw [← hq] at hr
    omega
  have h2 : (0 : ℤ) ≤ ⌊q⌋ := by
    by_contra hcon
    push_neg at hcon
    have : ⌊q⌋.toNat = 0 := Int.toNat_of_nonpos (le_of_lt hcon)
    omega
  have h3 : ((r : ℚ) + 1) ≤ (⌊q⌋ : ℚ) := by
    have h1' : ((r + 1 : ℕ) : ℤ) ≤ ⌊q⌋ := by
      rw [← Int.toNat_of_nonneg h2]
      exact_mod_cast h1
    exact_mod_cast h1'
  have h4 : (⌊q⌋ : ℚ) ≤ q := Int.floor_le q
  have h5 : ((r : ℚ) + 1) * lineH fontSize ≤ q * lineH fontSize :=
    mul_le_mul_of_nonneg_right (by linarith) (le_of_lt hL)
  rw [hq, div_mul_cancel₀ _ (ne_of_gt hL)] at h5
  linarith

/-- Closed form of the advance counter: after `n` advances, `n % K`
advances sit on the current page and `n / K` pages are sealed. -/
theorem advCounter_iterate {K : Nat} (hK : 1 ≤ K) (n : Nat) :
    (advCounter K)^[n] (0, 0) = (n % K, n / K) := by
  induction n with
  | zero => simp
  | succ n ih =>
    rw [Function.iterate_succ_apply', ih]
    unfold advCounter
    have hmod : n % K < K := Nat.mod_lt n (by omega)
    by_cases hcase : n % K + 1 = K
    · rw [if_pos hcase]
      have heq : n + 1 = K * (n / K + 1) := by
        have h0 := Nat.div_add_mod n K
        have h1 : K * (n / K + 1) = K * (n / K) + K := by ring
        omega
      have hdiv : (n + 1) / K = n / K + 1 := by
        rw [heq]
        exact Nat.mul_div_cancel_left _ (by omega)
      have hmod' : (n + 1) % K = 0 := by
        rw [heq]
        exact Nat.mul_mod_right ..
      rw [hdiv, hmod']
    · rw [if_neg hcase]
      have heq : n + 1 = K * (n / K) + (n % K + 1) := by
        have := Nat.div_add_mod n K
        omega
      have hlt : n % K + 1 < K := by omega
      have hdiv : (n + 1) / K = n / K := by
        rw [heq, Nat.mul_add_div (by omega : 0 < K),
          Nat.div_eq_of_lt hlt]
        omega
      have hmod' : (n + 1) % K = n % K + 1 := by
        rw [heq, Nat.mul_add_mod]
        exact Nat.mod_eq_of_lt hlt
      rw [hdiv, hmod']

/-- Correspondence between the concrete layout state and the abstract
counter: the cursor sits `r` advances below the top-margin start with
`r < pageCapacity`, and `b` pages are sealed. -/
def stRel (fontSize : ℚ) (m : Margins) (st : LayoutState)
    (s : Nat × Nat) : Prop :=
  st.y = (A4h - m.top) - (s.1 : ℚ) * lineH fontSize ∧
  s.1 + 1 ≤ pageCapacity fontSize m ∧
  st.done.length = s.2

theorem stepAdvance_rel {fontSize : ℚ} {m : Margins} {st : LayoutState}
    {s : Nat × Nat} (hL : 0 < lineH fontSize)
    (h : stRel fontSize m st s) :
    stRel fontSize m (stepAdvance m fontSize st)
      (advCounter (pageCapacity fontSize m) s) := by
  obtain ⟨hy, hrK, hb⟩ := h
  unfold stepAdvance advCounter
  by_cases hcase : s.1 + 1 = pageCapacity fontSize m
  · have hbreak : st.y - lineH fontSize < m.bottom := by
      rw [hy]
      have harith : (A4h - m.top) - (s.1 : ℚ) * lineH fontSize -
          lineH fontSize =
          (A4h - m.top) - ((s.1 : ℚ) + 1) * lineH fontSize := by ring
      rw [harith]
      have hcast : ((s.1 : ℚ) + 1) = (pageCapacity fontSize m : ℚ) := by
        exact_mod_cast congrArg (Nat.cast : Nat → ℚ) hcase
      rw [hcast]
      exact pageCapacity_breaks hL
    rw [if_pos hbreak, if_pos hcase]
    refine ⟨by simp, ?_, by simp [hb]⟩
    have := pageCapacity_pos fontSize m
    omega
  · have hlt : s.1 + 1 < pageCapacity fontSize m :=
      lt_of_le_of_ne hrK hcase
    have hnobreak : ¬ st.y - lineH fontSize < m.bottom := by
      rw [not_lt, hy]
      have harith : (A4h - m.top) - (s.1 : ℚ) * lineH fontSize -
          lineH fontSize =
          (A4h - m.top) - ((s.1 : ℚ) + 1) * lineH fontSize := by ring
      rw [harith]
      exact pageCapacity_no_break hL hlt
    rw [if_neg hnobreak, if_neg hcase]
    refine ⟨?_, by omega, hb⟩
    show st.y - lineH fontSize = _
    rw [hy]
    push_cast
    ring

theorem stepDraw_rel {fontSize : ℚ} {m : Margins} {st : LayoutState}
    {s : Nat × Nat} (seg : List Char) (hL : 0 < lineH fontSize)
    (h : stRel fontSize m st s) :
    stRel fontSize m (stepDraw m fontSize st seg)
      (advCounter (pageCapacity fontSize m) s) := by
  obtain ⟨hy, hrK, hb⟩ := h
  exact stepAdvance_rel hL ⟨hy, hrK, hb⟩

theorem foldl_stepDraw_rel {fontSize : ℚ} {m : Margins}
    (hL : 0 < lineH fontSize) (segs : List (List Char)) :
    ∀ (st : LayoutState) (s : Nat × Nat), stRel fontSize m st s →
      stRel fontSize m (segs.foldl (stepDraw m fontSize) st)
        ((advCounter (pageCapacity fontSize m))^[segs.length] s) := by
  induction segs with
  | nil => intro st s h; exact h
  | cons seg t ih =>
    intro st s h
    have h1 := stepDraw_rel seg hL h
    have := ih _ _ h1
    simpa [Function.iterate_succ_apply, List.length_cons] using this

theorem stepLine_rel {fontSize : ℚ} {m : Margins}
    (wrap : List Char → List (List Char)) {st : LayoutState}
    {s : Nat × Nat} (hL : 0 < lineH fontSize) (raw : List Char)
    (h : stRel fontSize m st s) :
    stRel fontSize m (stepLine wrap m fontSize st raw)
      ((advCounter (pageCapacity fontSize m))^[lineAdvances wrap raw] s) := by
  unfold stepLine lineAdvances
  by_cases hblank : ((pyRstrip raw).all isPyWhite : Bool) = true
  · rw [if_pos hblank, if_pos hblank, Function.iterate_one]
    exact stepAdvance_rel hL h
  · rw [if_neg hblank, if_neg hblank]
    exact foldl_stepDraw_rel hL _ st s h

theorem foldl_stepLine_rel {fontSize : ℚ} {m : Margins}
    (wrap : List Char → List (List Char)) (hL : 0 < lineH fontSize)
    (lines : List (List Char)) :
    ∀ (st : LayoutState) (s : Nat × Nat), stRel fontSize m st s →
      stRel fontSize m (lines.foldl (stepLine wrap m fontSize) st)
        ((advCounter (pageCapacity fontSize m))^[
          (lines.map (lineAdvances wrap)).sum] s) := by
  induction lines with
  | nil => intro st s h; exact h
  | cons ln t ih =>
    intro st s h
    have h1 := stepLine_rel wrap hL ln h
    have h2 := ih _ _ h1
    rw [List.map_cons, List.sum_cons, Nat.add_comm,
      Function.iterate_add_apply]
    simpa using h2

/-- The page count of one layout call on non-blank text is exactly
`advances / capacity + 1` — a function of the advance count alone. -/
theorem writeWrappedPage_count (wrap : List Char → List (List Char))
    (fontSize : ℚ) (m : Margins) (text : List Char)
    (hL : 0 < lineH fontSize) (hnb : (text.all isPyWhite : Bool) = false) :
    (writeWrappedPage wrap fontSize m text).length =
      textAdvances wrap text / pageCapacity fontSize m + 1 := by
  unfold writeWrappedPage
  rw [if_neg (by simp [hnb])]
  have h0 : stRel fontSize m ⟨A4h - m.top, [], []⟩ (0, 0) := by
    refine ⟨by simp, ?_, rfl⟩
    simpa using pageCapacity_pos fontSize m
  have hfin := foldl_stepLine_rel wrap hL (splitlinesPy text) _ _ h0
  rw [advCounter_iterate (pageCapacity_pos fontSize m)] at hfin
  obtain ⟨-, -, hlen⟩ := hfin
  simp only [List.length_append, List.length_singleton, hlen]
  rfl

attribute [local semireducible] Rat.add Rat.sub Rat.mul Rat.inv
  Rat.ofScientific in
/-- Counterexample to C5: with the style fixed (300 pt font, default
margins, a wrap that fits each line), the two-character text `"\na"`
(a blank line, then one display line) fills a page and spills onto a
second one, while the three-character text `"bbb"` stays on a single
page: the page count is not monotone in the character length. -/
theorem C5_counterexample :
    "\na".toList.length ≤ "bbb".toList.length ∧
    (writeWrappedPage (fun l => [l]) 300 defaultMargins
        "bbb".toList).length <
      (writeWrappedPage (fun l => [l]) 300 defaultMargins
        "\na".toList).length := by
  constructor
  · decide
  · decide

/-- C5 as amended: for fixed style the page count is monotonically
non-decreasing in the number of cursor advances of the text (blank lines
plus wrapped display lines) rather than in its character length; blank
texts are excluded on the right since they bypass the line loop. -/
theorem C5_amended_monotone_in_advances
    (wrap : List Char → List (List Char)) (fontSize : ℚ) (m : Margins)
    (t1 t2 : List Char) (hFS : 0 < fontSize)
    (hnb2 : (t2.all isPyWhite : Bool) = false)
    (hadv : textAdvances wrap t1 ≤ textAdvances wrap t2) :
    (writeWrappedPage wrap fontSize m t1).length ≤
      (writeWrappedPage wrap fontSize m t2).length := by
  have hL : 0 < lineH fontSize := by
    unfold lineH
    have : (0 : ℚ) < 1.27 := by norm_num
    exact mul_pos hFS this
  by_cases hnb1 : (t1.all isPyWhite : Bool) = true
  · have : (writeWrappedPage wrap fontSize m t1).length = 1 := by
      unfold writeWrappedPage
      rw [if_pos hnb1]
      rfl
    rw [this]
    exact writeWrappedPage_length_pos ..
  · rw [writeWrappedPage_count _ _ _ _ hL (by simpa using hnb1),
      writeWrappedPage_count _ _ _ _ hL hnb2]
    exact Nat.add_le_add_right (Nat.div_le_div_right hadv) 1

attribute [local semireducible] Rat.add Rat.sub Rat.mul Rat.inv
  Rat.ofScientific in
/-- Witness for the amended C5 at concrete texts and the default style. -/
theorem C5_amended_witness :
    ((0 : ℚ) < 11 ∧ ("ab".toList.all isPyWhite : Bool) = false ∧
      textAdvances (fun l => [l]) "a".toList ≤
        textAdvances (fun l => [l]) "ab".toList) ∧
    (writeWrappedPage (fun l => [l]) 11 defaultMargins "a".toList).length ≤
      (writeWrappedPage (fun l => [l]) 11 defaultMargins
        "ab".toList).length :=
  ⟨⟨by decide, by decide, by decide⟩,
   C5_amended_monotone_in_advances (fun l => [l]) 11 defaultMargins
     "a".toList "ab".toList (by decide) (by decide) (by decide)⟩

end PdfVerticalOcr
